import Mathlib

/-!
Shallow embedding of the `everybit` bit-array library (`src/bitarray.rs`).

A Rust `BitArray { bit_sz: usize, data: Vec<u8> }` is modelled as a Lean
structure with a `Nat` bit count and a `List Nat` of bytes (every byte kept
below 256 by the operations themselves, mirroring `u8` arithmetic).
Fallible Rust behaviour — `assert_eq!` failures, `panic!`, and out-of-bounds
vector indexing (all of which abort the process in Rust) — is modelled with
`Except Failure`, using distinct constructors so theorems can tell the three
ways of aborting apart.  `usize` is modelled as `Nat` and `isize` as `Int`;
the Rust `%` operator on `isize` is truncated remainder, i.e. `Int.tmod`.
-/

namespace Everybit

/-- Decidable equality for `Except`, so concrete runs of the embedded
operations can be checked by `decide`. -/
instance {ε α : Type} [DecidableEq ε] [DecidableEq α] : DecidableEq (Except ε α) := fun x y =>
  match x, y with
  | .ok a, .ok b =>
    if h : a = b then isTrue (congrArg Except.ok h)
    else isFalse fun hc => h (Except.ok.inj hc)
  | .error a, .error b =>
    if h : a = b then isTrue (congrArg Except.error h)
    else isFalse fun hc => h (Except.error.inj hc)
  | .ok _, .error _ => isFalse fun hc => Except.noConfusion hc
  | .error _, .ok _ => isFalse fun hc => Except.noConfusion hc

/-- Binding an `Except.ok` value reduces to the continuation. -/
theorem ok_bind {ε α β : Type} (a : α) (f : α → Except ε β) :
    (Except.ok a : Except ε α) >>= f = f a := rfl

/-- Binding an `Except.error` value short-circuits. -/
theorem error_bind {ε α β : Type} (e : ε) (f : α → Except ε β) :
    (Except.error e : Except ε α) >>= f = Except.error e := rfl

/-- Ways the Rust code can abort: a failed `assert_eq!`, an explicit
`panic!`, or an out-of-bounds `Vec` index. -/
inductive Failure where
  | assertFailed
  | panicked
  | indexOutOfBounds
deriving DecidableEq

/-- The `BitArray` struct of `src/bitarray.rs`: a logical bit count and the
packed byte buffer. -/
structure BitArray where
  bit_sz : Nat
  data : List Nat
deriving DecidableEq

namespace BitArray

/-- `BitArray::bitmask`: `1 << (bit_index % 8)`. -/
def bitmask (bit_index : Nat) : Nat := 1 <<< (bit_index % 8)

/-- `BitArray::new`: `bit_sz / 8 + 1` zero bytes. -/
def new (bit_sz : Nat) : BitArray :=
  { bit_sz := bit_sz, data := List.replicate (bit_sz / 8 + 1) 0 }

/-- `BitArray::from_u8`: an 8-bit array over a single byte. -/
def from_u8 (n : Nat) : BitArray :=
  { bit_sz := 8, data := [n % 256] }

/-- `BitArray::get_bit_sz`. -/
def get_bit_sz (a : BitArray) : Nat := a.bit_sz

/-- `BitArray::get`: assert `bit_index < bit_sz`, then test the
`bit_index % 8`-th bit of byte `bit_index / 8`. -/
def get (a : BitArray) (bit_index : Nat) : Except Failure Bool :=
  if bit_index < a.bit_sz then
    match a.data[bit_index / 8]? with
    | some target_byte => .ok (target_byte &&& bitmask bit_index != 0)
    | none => .error .indexOutOfBounds
  else .error .assertFailed

/-- `BitArray::set`: assert `bit_index < bit_sz`, then or the mask in
(`val = true`) or and with the complemented mask (`val = false`).  The `u8`
complement `!mask` is `255 ^^^ mask`. -/
def set (a : BitArray) (bit_index : Nat) (val : Bool) : Except Failure BitArray :=
  if bit_index < a.bit_sz then
    match a.data[bit_index / 8]? with
    | some b =>
      let mask := bitmask bit_index
      .ok { a with data := a.data.set (bit_index / 8)
                     (if val then b ||| mask else b &&& (255 ^^^ mask)) }
    | none => .error .indexOutOfBounds
  else .error .assertFailed

/-- `BitArray::modulo`: `((n % m) + m) % m` over `isize` (truncated `%`),
with the two `assert_eq!` checks of the source. -/
def modulo (n : Int) (m : Nat) : Except Failure Nat :=
  if 0 < (m : Int) then
    if 0 ≤ (n.tmod (m : Int) + (m : Int)).tmod (m : Int) then
      .ok ((n.tmod (m : Int) + (m : Int)).tmod (m : Int)).toNat
    else .error .assertFailed
  else .error .assertFailed

/-- The `while i + 1 < bit_offset + bit_length` loop of
`BitArray::rotate_left_one`, with its iteration count (`bit_length - 1`,
clamped at zero) made explicit as structural fuel.  Returns the final state
together with the final value of `i`. -/
def shiftLoop (a : BitArray) (i : Nat) : Nat → Except Failure (BitArray × Nat)
  | 0 => .ok (a, i)
  | steps + 1 => do
      let b ← a.get (i + 1)
      let a' ← a.set i b
      shiftLoop a' (i + 1) steps

/-- `BitArray::rotate_left_one`: save the first bit of the range, shift every
bit one position toward `bit_offset`, write the saved bit at the final
position. -/
def rotate_left_one (a : BitArray) (bit_offset bit_length : Nat) :
    Except Failure BitArray := do
  let first_bit ← a.get bit_offset
  let (a', i) ← shiftLoop a bit_offset (bit_length - 1)
  a'.set i first_bit

/-- `BitArray::rotate_left`: `bit_left_amount` repetitions of
`rotate_left_one`. -/
def rotate_left (a : BitArray) (bit_offset bit_length : Nat) :
    Nat → Except Failure BitArray
  | 0 => .ok a
  | k + 1 => do
      let a' ← a.rotate_left_one bit_offset bit_length
      rotate_left a' bit_offset bit_length k

/-- `BitArray::rotate`: the source's (buggy) bounds assert
`bit_offset + bit_offset <= bit_sz`, the `bit_length == 0` early return, then
normalization through `modulo` and `rotate_left`. -/
def rotate (a : BitArray) (bit_offset bit_length : Nat) (bit_right_amount : Int) :
    Except Failure BitArray :=
  if bit_offset + bit_offset ≤ a.bit_sz then
    if bit_length = 0 then .ok a
    else do
      let k ← modulo (-bit_right_amount) bit_length
      a.rotate_left bit_offset bit_length k
  else .error .assertFailed

/-- Body of the `for (i, b) in bits.chars().rev().enumerate()` loop of
`BitArray::from_str`; a character other than a binary digit hits the
source's `panic!`. -/
def fromStrLoop (a : BitArray) : List Char → Nat → Except Failure BitArray
  | [], _ => .ok a
  | c :: rest, i => do
      let v : Bool ←
        if c = '0' then .ok false
        else if c = '1' then .ok true
        else .error .panicked
      let a' ← a.set i v
      fromStrLoop a' rest (i + 1)

/-- `BitArray::from_str`: allocate `new (length of the input)` and set bit
`i` from the `i`-th character counted from the right. -/
def from_str (bits : String) : Except Failure BitArray :=
  fromStrLoop (new bits.length) bits.data.reverse 0

/-- The `for i in 0 .. n` loop of `BitArray::show`, prepending one rendered
character per bit (`s.insert(0, c)` on a Lean `List Char`). -/
def renderLoop (a : BitArray) (s : List Char) : List Nat → Except Failure (List Char)
  | [] => .ok s
  | i :: rest => do
      let b ← a.get i
      renderLoop a ((if b then '1' else '0') :: s) rest

/-- `BitArray::show` (named `render` here since `show` is a Lean keyword):
the textual rendering, highest bit index leftmost. -/
def render (a : BitArray) : Except Failure String := do
  let cs ← renderLoop a [] (List.range a.get_bit_sz)
  pure (String.mk cs)

/-- The `for i in 0 .. bit_sz` loop of `PartialEq::eq`, returning `false` at
the first index whose bits differ. -/
def eqLoop (a b : BitArray) : List Nat → Except Failure Bool
  | [] => .ok true
  | i :: rest => do
      let x ← a.get i
      let y ← b.get i
      if x ≠ y then .ok false else eqLoop a b rest

/-- `PartialEq for BitArray`: equal bit counts and bitwise-equal contents. -/
def beq (a b : BitArray) : Except Failure Bool :=
  if a.get_bit_sz ≠ b.get_bit_sz then .ok false
  else eqLoop a b (List.range a.get_bit_sz)

/-- Well-formedness every Rust-reachable `BitArray` enjoys: the byte buffer
covers all addressable bits.  `new`, `from_u8` and `from_str` establish it
and `set`/`rotate` preserve it. -/
def wf (a : BitArray) : Prop := a.bit_sz ≤ 8 * a.data.length

/-- Pure view of `get` on a well-formed array. -/
def bitAt (a : BitArray) (i : Nat) : Bool :=
  a.data.getD (i / 8) 0 &&& bitmask i != 0

/-- Byte value a successful `set` writes into byte `i / 8`. -/
def setByte (b i : Nat) (v : Bool) : Nat :=
  if v then b ||| bitmask i else b &&& (255 ^^^ bitmask i)

/-- Pure description of the state a successful `set` produces. -/
def setPure (a : BitArray) (i : Nat) (v : Bool) : BitArray :=
  { a with data := a.data.set (i / 8) (setByte (a.data.getD (i / 8) 0) i v) }

theorem wf_new (n : Nat) : (new n).wf := by
  simp only [wf, new, List.length_replicate]
  omega

theorem wf_from_u8 (n : Nat) : (from_u8 n).wf := by
  simp [wf, from_u8]

theorem byte_index_lt {a : BitArray} (hwf : a.wf) {i : Nat} (h : i < a.bit_sz) :
    i / 8 < a.data.length := by
  unfold wf at hwf
  omega

theorem get_of_lt {a : BitArray} {i : Nat} (h : i < a.bit_sz)
    (hl : i / 8 < a.data.length) : a.get i = .ok (a.bitAt i) := by
  simp [get, bitAt, h, List.getElem?_eq_getElem hl, List.getD_eq_getElem?_getD]

theorem get_ok {a : BitArray} (hwf : a.wf) {i : Nat} (h : i < a.bit_sz) :
    a.get i = .ok (a.bitAt i) :=
  get_of_lt h (byte_index_lt hwf h)

theorem get_oob {a : BitArray} {i : Nat} (h : i < a.bit_sz)
    (hl : ¬ i / 8 < a.data.length) : a.get i = .error .indexOutOfBounds := by
  simp [get, h, List.getElem?_eq_none (by omega : a.data.length ≤ i / 8)]

theorem get_err {a : BitArray} {i : Nat} (h : ¬ i < a.bit_sz) :
    a.get i = .error .assertFailed := by
  simp [get, h]

theorem set_ok {a : BitArray} (hwf : a.wf) {i : Nat} (h : i < a.bit_sz) (v : Bool) :
    a.set i v = .ok (a.setPure i v) := by
  have hb : i / 8 < a.data.length := byte_index_lt hwf h
  simp [set, setPure, setByte, h, List.getElem?_eq_getElem hb, List.getD_eq_getElem?_getD]

@[simp] theorem setPure_bit_sz (a : BitArray) (i : Nat) (v : Bool) :
    (a.setPure i v).bit_sz = a.bit_sz := rfl

@[simp] theorem setPure_length (a : BitArray) (i : Nat) (v : Bool) :
    (a.setPure i v).data.length = a.data.length := by
  simp [setPure]

theorem setPure_wf {a : BitArray} (hwf : a.wf) (i : Nat) (v : Bool) :
    (a.setPure i v).wf := by
  unfold wf at hwf ⊢
  simpa using hwf

theorem get_ok_inv {a : BitArray} {i : Nat} {x : Bool} (h : a.get i = .ok x) :
    i < a.bit_sz ∧ i / 8 < a.data.length ∧ x = a.bitAt i := by
  unfold get at h
  split at h
  case isTrue hlt =>
    cases hg : a.data[i / 8]? with
    | some b =>
      rw [hg] at h
      have hlen : i / 8 < a.data.length := by
        have := List.getElem?_eq_some.mp hg
        exact this.1
      refine ⟨hlt, hlen, ?_⟩
      cases h
      simp [bitAt, List.getD_eq_getElem?_getD, hg]
    | none =>
      rw [hg] at h
      cases h
  case isFalse hlt => cases h

theorem set_ok_inv {a a' : BitArray} {i : Nat} {v : Bool} (h : a.set i v = .ok a') :
    i < a.bit_sz ∧ i / 8 < a.data.length ∧ a' = a.setPure i v := by
  unfold set at h
  split at h
  case isTrue hlt =>
    cases hg : a.data[i / 8]? with
    | some b =>
      rw [hg] at h
      have hlen : i / 8 < a.data.length := by
        have := List.getElem?_eq_some.mp hg
        exact this.1
      refine ⟨hlt, hlen, ?_⟩
      cases h
      simp [setPure, setByte, List.getD_eq_getElem?_getD, hg]
    | none =>
      rw [hg] at h
      cases h
  case isFalse hlt => cases h

theorem bitAt_eq_testBit (a : BitArray) (i : Nat) :
    a.bitAt i = (a.data.getD (i / 8) 0).testBit (i % 8) := by
  unfold bitAt bitmask
  rw [Nat.one_shiftLeft, Nat.and_two_pow]
  cases hb : (a.data.getD (i / 8) 0).testBit (i % 8) <;>
    simp [hb, (Nat.two_pow_pos (i % 8)).ne']

theorem testBit_255 {k : Nat} (hk : k < 8) : Nat.testBit 255 k = true := by
  rw [show (255 : Nat) = 2 ^ 8 - 1 by norm_num, Nat.testBit_two_pow_sub_one]
  simpa using hk

theorem bitAt_setPure_self {a : BitArray} {i : Nat} (hb : i / 8 < a.data.length)
    (v : Bool) : (a.setPure i v).bitAt i = v := by
  rw [bitAt_eq_testBit]
  unfold setPure setByte bitmask
  rw [Nat.one_shiftLeft]
  simp only [List.getD_eq_getElem?_getD, List.getElem?_set_self hb, Option.getD_some]
  cases v with
  | true => simp [Nat.testBit_two_pow_self]
  | false =>
    simp only [Bool.false_eq_true, if_false]
    rw [Nat.testBit_and, Nat.testBit_xor,
      testBit_255 (Nat.mod_lt i (by norm_num)), Nat.testBit_two_pow_self]
    simp

theorem bitAt_setPure_other {a : BitArray} {i j : Nat} (hne : j ≠ i) (v : Bool) :
    (a.setPure i v).bitAt j = a.bitAt j := by
  by_cases hbyte : j / 8 = i / 8
  · have hbit : j % 8 ≠ i % 8 := by omega
    by_cases hlen : i / 8 < a.data.length
    · rw [bitAt_eq_testBit, bitAt_eq_testBit]
      unfold setPure setByte bitmask
      rw [Nat.one_shiftLeft]
      simp only [hbyte, List.getD_eq_getElem?_getD, List.getElem?_set_self hlen,
        Option.getD_some]
      cases v with
      | true => simp [Nat.testBit_two_pow_of_ne (fun h => hbit h.symm)]
      | false =>
        simp only [Bool.false_eq_true, if_false]
        rw [Nat.testBit_and, Nat.testBit_xor,
          testBit_255 (Nat.mod_lt j (by norm_num)),
          Nat.testBit_two_pow_of_ne (fun h => hbit h.symm)]
        simp
    · have hset : a.data.set (i / 8) (setByte (a.data.getD (i / 8) 0) i v) = a.data :=
        List.set_eq_of_length_le (by omega)
      unfold setPure
      rw [hset]
  · unfold bitAt setPure
    simp only [List.getD_eq_getElem?_getD,
      List.getElem?_set_ne (fun h => hbyte h.symm)]

/-- Two arrays with the same bit count, the same buffer length and the same
pure bit value at `j` answer `get j` identically. -/
theorem get_congr {a b : BitArray} {j : Nat} (hsz : b.bit_sz = a.bit_sz)
    (hlen : b.data.length = a.data.length) (hbit : b.bitAt j = a.bitAt j) :
    b.get j = a.get j := by
  by_cases h : j < a.bit_sz
  · by_cases hl : j / 8 < a.data.length
    · rw [get_of_lt (hsz ▸ h) (by omega), get_of_lt h hl, hbit]
    · rw [get_oob (hsz ▸ h) (by omega), get_oob h hl]
  · rw [get_err (hsz ▸ h), get_err h]

/-- Truncated remainder by a positive modulus is strictly above `-b`. -/
theorem tmod_lower_bound (a : Int) {b : Int} (hb : 0 < b) : -b < a.tmod b := by
  match a with
  | .ofNat n =>
    have h0 : 0 ≤ Int.tmod (.ofNat n) b := Int.tmod_nonneg b (Int.ofNat_nonneg n)
    omega
  | .negSucc n =>
    obtain ⟨k, rfl⟩ := Int.eq_succ_of_zero_lt hb
    have h1 : (n + 1) % (k + 1) < k + 1 := Nat.mod_lt _ (Nat.succ_pos k)
    have h2 : Int.tmod (Int.negSucc n) (k.succ : Int) =
        -(((n + 1) % (k + 1) : Nat) : Int) := rfl
    rw [h2]
    omega

/-- On a positive modulus, the source's `modulo` succeeds and returns the
mathematical non-negative residue `n.emod m`. -/
theorem modulo_ok (n : Int) {m : Nat} (hm : 0 < m) :
    modulo n m = .ok ((n % (m : Int)).toNat) := by
  have hm' : (0 : Int) < (m : Int) := by exact_mod_cast hm
  have hlow := tmod_lower_bound n hm'
  have hkey : (n.tmod (m : Int) + (m : Int)).tmod (m : Int) = n % (m : Int) := by
    have h0 : 0 ≤ n.tmod (m : Int) + (m : Int) := by omega
    rw [Int.tmod_eq_emod h0 (le_of_lt hm'), Int.add_emod_self, Int.tmod_def,
      Int.sub_eq_add_neg, Int.add_neg_mul_emod_self_left]
  have hnn : 0 ≤ n % (m : Int) := Int.emod_nonneg n (by omega)
  unfold modulo
  rw [if_pos hm', hkey, if_pos hnn]

/-- Inversion for a successful run of the shifting loop: the final index is
`i + steps`, sizes are preserved, and every bit outside the written window
`[i, i + steps)` is preserved. -/
theorem shiftLoop_inv (steps : Nat) :
    ∀ (a : BitArray) (i : Nat) (a' : BitArray) (i' : Nat),
      shiftLoop a i steps = .ok (a', i') →
      i' = i + steps ∧ a'.bit_sz = a.bit_sz ∧ a'.data.length = a.data.length ∧
      ∀ j, (j < i ∨ i + steps ≤ j) → a'.bitAt j = a.bitAt j := by
  induction steps with
  | zero =>
    intro a i a' i' h
    simp only [shiftLoop, Except.ok.injEq, Prod.mk.injEq] at h
    obtain ⟨rfl, rfl⟩ := h
    exact ⟨rfl, rfl, rfl, fun j _ => rfl⟩
  | succ steps ih =>
    intro a i a' i' h
    simp only [shiftLoop] at h
    cases hg : a.get (i + 1) with
    | error e =>
      simp only [hg, error_bind] at h
      exact Except.noConfusion h
    | ok b =>
      simp only [hg, ok_bind] at h
      cases hs : a.set i b with
      | error e =>
      simp only [hs, error_bind] at h
      exact Except.noConfusion h
      | ok a₁ =>
        simp only [hs, ok_bind] at h
        obtain ⟨_, hlen, rfl⟩ := set_ok_inv hs
        obtain ⟨hi', hsz2, hlen2, hframe2⟩ := ih _ _ _ _ h
        refine ⟨by omega, hsz2.trans rfl, hlen2.trans (by simp), ?_⟩
        intro j hj
        have hj2 : j < i + 1 ∨ (i + 1) + steps ≤ j := by omega
        rw [hframe2 j hj2, bitAt_setPure_other (by omega) b]

/-- Inversion for a successful `rotate_left_one`: sizes are preserved and
every bit outside `[bit_offset, bit_offset + bit_length)` is preserved. -/
theorem rotate_left_one_inv {a a' : BitArray} {o l : Nat}
    (h : a.rotate_left_one o l = .ok a') :
    a'.bit_sz = a.bit_sz ∧ a'.data.length = a.data.length ∧
    ∀ j, (j < o ∨ o + l ≤ j) → a'.bitAt j = a.bitAt j := by
  unfold rotate_left_one at h
  cases hg : a.get o with
  | error e =>
      simp only [hg, error_bind] at h
      exact Except.noConfusion h
  | ok first =>
    simp only [hg, ok_bind] at h
    cases hs : shiftLoop a o (l - 1) with
    | error e =>
      simp only [hs, error_bind] at h
      exact Except.noConfusion h
    | ok p =>
      obtain ⟨a₁, i⟩ := p
      simp only [hs, ok_bind] at h
      obtain ⟨hi_lt, hi_len, rfl⟩ := set_ok_inv h
      obtain ⟨rfl, hsz1, hlen1, hframe1⟩ := shiftLoop_inv (l - 1) a o a₁ _ hs
      obtain ⟨ho_lt, ho_len, hfirst⟩ := get_ok_inv hg
      refine ⟨by simp [hsz1], by simp [hlen1], ?_⟩
      intro j hj
      by_cases hji : j = o + (l - 1)
      · have hl0 : l = 0 := by omega
        subst hji
        rw [bitAt_setPure_self hi_len]
        rw [hfirst]
        have : o + (l - 1) = o := by omega
        rw [this]
      · rw [bitAt_setPure_other hji, hframe1 j (by omega)]

/-- Inversion for a successful `rotate_left`: sizes are preserved and every
bit outside the rotated range is preserved. -/
theorem rotate_left_inv (k : Nat) :
    ∀ {a a' : BitArray} {o l : Nat}, a.rotate_left o l k = .ok a' →
      a'.bit_sz = a.bit_sz ∧ a'.data.length = a.data.length ∧
      ∀ j, (j < o ∨ o + l ≤ j) → a'.bitAt j = a.bitAt j := by
  induction k with
  | zero =>
    intro a a' o l h
    simp only [rotate_left, Except.ok.injEq] at h
    subst h
    exact ⟨rfl, rfl, fun j _ => rfl⟩
  | succ k ih =>
    intro a a' o l h
    simp only [rotate_left] at h
    cases h1 : a.rotate_left_one o l with
    | error e =>
      simp only [h1, error_bind] at h
      exact Except.noConfusion h
    | ok a₁ =>
      simp only [h1, ok_bind] at h
      obtain ⟨hsz1, hlen1, hf1⟩ := rotate_left_one_inv h1
      obtain ⟨hsz2, hlen2, hf2⟩ := ih h
      exact ⟨hsz2.trans hsz1, hlen2.trans hlen1,
        fun j hj => (hf2 j hj).trans (hf1 j hj)⟩

/-- The equality loop answers `true` exactly when the two arrays agree on
every listed (valid) index. -/
theorem eqLoop_ok {a b : BitArray} (hwa : a.wf) (hwb : b.wf) :
    ∀ L : List Nat, (∀ i ∈ L, i < a.bit_sz ∧ i < b.bit_sz) →
      (eqLoop a b L = .ok true ↔ ∀ i ∈ L, a.bitAt i = b.bitAt i) := by
  intro L
  induction L with
  | nil => intro _; simp [eqLoop]
  | cons i L ih =>
    intro hmem
    have hia : i < a.bit_sz := (hmem i (by simp)).1
    have hib : i < b.bit_sz := (hmem i (by simp)).2
    simp only [eqLoop, get_ok hwa hia, get_ok hwb hib, ok_bind]
    by_cases hbit : a.bitAt i = b.bitAt i
    · rw [if_neg (not_ne_iff.mpr hbit),
        ih (fun j hj => hmem j (List.mem_cons_of_mem _ hj))]
      constructor
      · rintro hall j hj
        rcases List.mem_cons.mp hj with rfl | hj
        · exact hbit
        · exact hall j hj
      · intro hall j hj
        exact hall j (List.mem_cons_of_mem _ hj)
    · rw [if_pos hbit]
      exact iff_of_false (by simp) (fun hall => hbit (hall i (by simp)))

/-- A successful run of the parser loop over valid binary digits: the array
keeps its sizes, bits outside the written window `[i, i + cs.length)` are
untouched, and bit `i + k` records whether the `k`-th character is `'1'`. -/
theorem fromStrLoop_ok (cs : List Char) :
    ∀ (a : BitArray) (i : Nat), a.wf → (∀ c ∈ cs, c = '0' ∨ c = '1') →
      i + cs.length ≤ a.bit_sz →
      ∃ a', fromStrLoop a cs i = .ok a' ∧ a'.bit_sz = a.bit_sz ∧
        a'.data.length = a.data.length ∧
        (∀ j, (j < i ∨ i + cs.length ≤ j) → a'.bitAt j = a.bitAt j) ∧
        (∀ k, (hk : k < cs.length) → a'.bitAt (i + k) = (cs[k] == '1')) := by
  induction cs with
  | nil =>
    intro a i hwf _ _
    exact ⟨a, rfl, rfl, rfl, fun j _ => rfl, fun k hk => absurd hk (by simp)⟩
  | cons c rest ih =>
    intro a i hwf hvalid hlen
    have hlen' : i + (rest.length + 1) ≤ a.bit_sz := by simpa using hlen
    have hi : i < a.bit_sz := by omega
    have hbyte : i / 8 < a.data.length := byte_index_lt hwf hi
    rcases hvalid c (by simp) with rfl | rfl
    · simp only [fromStrLoop, reduceIte, ok_bind, set_ok hwf hi]
      obtain ⟨a', h1, h2, h3, h4, h5⟩ := ih (a.setPure i false) (i + 1)
        (setPure_wf hwf i false)
        (fun d hd => hvalid d (by simp [hd]))
        (by simp; omega)
      refine ⟨a', h1, by simp [h2], by simp [h3], ?_, ?_⟩
      · intro j hj
        have hj' : j < i ∨ i + (rest.length + 1) ≤ j := by simpa using hj
        rw [h4 j (by omega), bitAt_setPure_other (by omega) false]
      · intro k hk
        cases k with
        | zero =>
          have hfr := h4 i (Or.inl (by omega))
          rw [show i + 0 = i from rfl, hfr, bitAt_setPure_self hbyte]
          rfl
        | succ k =>
          have hk' : k < rest.length := by simpa using hk
          rw [show i + (k + 1) = (i + 1) + k by omega, h5 k hk']
          simp
    · simp only [fromStrLoop, reduceIte, ok_bind, set_ok hwf hi]
      obtain ⟨a', h1, h2, h3, h4, h5⟩ := ih (a.setPure i true) (i + 1)
        (setPure_wf hwf i true)
        (fun d hd => hvalid d (by simp [hd]))
        (by simp; omega)
      refine ⟨a', h1, by simp [h2], by simp [h3], ?_, ?_⟩
      · intro j hj
        have hj' : j < i ∨ i + (rest.length + 1) ≤ j := by simpa using hj
        rw [h4 j (by omega), bitAt_setPure_other (by omega) true]
      · intro k hk
        cases k with
        | zero =>
          have hfr := h4 i (Or.inl (by omega))
          rw [show i + 0 = i from rfl, hfr, bitAt_setPure_self hbyte]
          rfl
        | succ k =>
          have hk' : k < rest.length := by simpa using hk
          rw [show i + (k + 1) = (i + 1) + k by omega, h5 k hk']
          simp

/-- If any listed character is not a binary digit (and the window fits the
array), the parser loop reaches the source's `panic!`. -/
theorem fromStrLoop_invalid (cs : List Char) :
    ∀ (a : BitArray) (i : Nat), a.wf → i + cs.length ≤ a.bit_sz →
      (∃ c ∈ cs, c ≠ '0' ∧ c ≠ '1') →
      fromStrLoop a cs i = .error .panicked := by
  induction cs with
  | nil =>
    intro a i _ _ hex
    simp at hex
  | cons c rest ih =>
    intro a i hwf hlen hex
    have hlen' : i + (rest.length + 1) ≤ a.bit_sz := by simpa using hlen
    have hi : i < a.bit_sz := by omega
    by_cases hc0 : c = '0'
    · subst hc0
      obtain ⟨d, hd, hd01⟩ := hex
      have hdr : d ∈ rest := by
        rcases List.mem_cons.mp hd with rfl | hdr
        · exact absurd rfl hd01.1
        · exact hdr
      simp only [fromStrLoop, reduceIte, ok_bind, set_ok hwf hi]
      exact ih (a.setPure i false) (i + 1) (setPure_wf hwf i false)
        (by simp; omega) ⟨d, hdr, hd01⟩
    · by_cases hc1 : c = '1'
      · subst hc1
        obtain ⟨d, hd, hd01⟩ := hex
        have hdr : d ∈ rest := by
          rcases List.mem_cons.mp hd with rfl | hdr
          · exact absurd rfl hd01.2
          · exact hdr
        simp only [fromStrLoop, reduceIte, ok_bind, set_ok hwf hi]
        exact ih (a.setPure i true) (i + 1) (setPure_wf hwf i true)
          (by simp; omega) ⟨d, hdr, hd01⟩
      · simp only [fromStrLoop, if_neg hc0, if_neg hc1, error_bind]

/-- The rendering loop prepends one character per listed index, so it
produces the reversed character list in front of the accumulator. -/
theorem renderLoop_ok (L : List Nat) :
    ∀ (a : BitArray) (acc : List Char), a.wf → (∀ i ∈ L, i < a.bit_sz) →
      renderLoop a acc L =
        .ok ((L.map (fun i => if a.bitAt i then '1' else '0')).reverse ++ acc) := by
  induction L with
  | nil => intro a acc _ _; simp [renderLoop]
  | cons i L ih =>
    intro a acc hwf hmem
    have hi : i < a.bit_sz := hmem i (by simp)
    simp only [renderLoop, get_ok hwf hi, ok_bind]
    rw [ih a _ hwf (fun j hj => hmem j (by simp [hj]))]
    simp

/-- `render` on a well-formed array produces the characters of bits
`bit_sz - 1, …, 0`, in that order. -/
theorem render_ok (a : BitArray) (hwf : a.wf) :
    a.render = .ok (String.mk (((List.range a.bit_sz).map
      (fun i => if a.bitAt i then '1' else '0')).reverse)) := by
  unfold render get_bit_sz
  rw [renderLoop_ok _ a [] hwf (fun i hi => List.mem_range.mp hi)]
  simp [ok_bind]

end BitArray

/-- C4: for every integer `n` and positive `m`, `modulo n m` succeeds with a
result in `[0, m)` (non-negativity is carried by the `Nat` return type)
congruent to `n` modulo `m`; in particular `modulo (-5) 4 = 3`,
`modulo (-1) 3 = 2` and `modulo 4 4 = 0`. -/
theorem c4_modulo_correct (n : Int) (m : Nat) (hm : 0 < m) :
    ∃ r : Nat, BitArray.modulo n m = .ok r ∧ r < m ∧
      (m : Int) ∣ ((r : Int) - n) ∧
      BitArray.modulo (-5) 4 = .ok 3 ∧ BitArray.modulo (-1) 3 = .ok 2 ∧
      BitArray.modulo 4 4 = .ok 0 := by
  have hm' : (0 : Int) < (m : Int) := by exact_mod_cast hm
  have h2 : 0 ≤ n % (m : Int) := Int.emod_nonneg n hm'.ne'
  refine ⟨(n % (m : Int)).toNat, BitArray.modulo_ok n hm, ?_, ?_,
    by decide, by decide, by decide⟩
  · have h1 : n % (m : Int) < (m : Int) := Int.emod_lt_of_pos n hm'
    omega
  · rw [Int.toNat_of_nonneg h2]
    exact ⟨-(n / (m : Int)), by rw [Int.emod_def]; ring⟩

/-- Witness for `c4_modulo_correct` at `n = -5`, `m = 4`. -/
theorem c4_modulo_correct_witness :
    0 < 4 ∧ ∃ r : Nat, BitArray.modulo (-5) 4 = .ok r ∧ r < 4 ∧
      (4 : Int) ∣ ((r : Int) - (-5)) ∧
      BitArray.modulo (-5) 4 = .ok 3 ∧ BitArray.modulo (-1) 3 = .ok 2 ∧
      BitArray.modulo 4 4 = .ok 0 :=
  ⟨by decide, c4_modulo_correct (-5) 4 (by decide)⟩

/-- C3: on any in-range non-empty subrange, rotating right by `r` and
rotating left by `length - (r mod length)` (passed as the negative amount
`-(length - r mod length)`) produce identical outcomes. -/
theorem c3_right_rotation_via_negation (a : BitArray) (o l : Nat) (r : Int)
    (hl : 0 < l) (hin : o + l ≤ a.bit_sz) :
    a.rotate o l r = a.rotate o l (-((l : Int) - r % (l : Int))) := by
  unfold BitArray.rotate
  by_cases hassert : o + o ≤ a.bit_sz
  · rw [if_pos hassert, if_pos hassert, if_neg hl.ne', if_neg hl.ne', Int.neg_neg,
      BitArray.modulo_ok _ hl, BitArray.modulo_ok _ hl]
    have hemod : (-r) % (l : Int) = ((l : Int) - r % (l : Int)) % (l : Int) := by
      have hsplit : ((l : Int) - r % (l : Int)) = -(r % (l : Int)) + (l : Int) * 1 := by
        ring
      calc (-r) % (l : Int) = (0 - r) % (l : Int) := by rw [Int.zero_sub]
        _ = (0 % (l : Int) - r % (l : Int)) % (l : Int) := by rw [Int.sub_emod]
        _ = (-(r % (l : Int))) % (l : Int) := by rw [Int.zero_emod, Int.zero_sub]
        _ = (-(r % (l : Int)) + (l : Int) * 1) % (l : Int) := by
              rw [Int.add_mul_emod_self_left]
        _ = ((l : Int) - r % (l : Int)) % (l : Int) := by rw [hsplit]
    rw [hemod]
  · rw [if_neg hassert, if_neg hassert]

/-- Witness for `c3_right_rotation_via_negation` on the byte `0b10010110`,
range `[2, 7)`, right amount `2`. -/
theorem c3_right_rotation_via_negation_witness :
    0 < 5 ∧ 2 + 5 ≤ (BitArray.from_u8 150).bit_sz ∧
    (BitArray.from_u8 150).rotate 2 5 2 =
      (BitArray.from_u8 150).rotate 2 5 (-((5 : Int) - 2 % (5 : Int))) :=
  ⟨by decide, by decide,
    c3_right_rotation_via_negation (BitArray.from_u8 150) 2 5 2
      (by decide) (by decide)⟩

/-- C1 (code bug evidence): `rotate` checks `bit_offset + bit_offset` instead
of `bit_offset + bit_length`, so `rotate 0 100 0` on an 8-bit array succeeds
with no OutOfRange failure although `0 + 100` exceeds the bit count, while the
in-range call `rotate 5 0 0` (offset + length = 5 ≤ 8) spuriously fails. -/
theorem c1_rotate_bounds_check_missing :
    (BitArray.from_u8 150).bit_sz < 0 + 100 ∧
    (BitArray.from_u8 150).rotate 0 100 0 = .ok (BitArray.from_u8 150) ∧
    5 + 0 ≤ (BitArray.from_u8 150).bit_sz ∧
    (BitArray.from_u8 150).rotate 5 0 0 = .error .assertFailed := by decide

/-- C2 counterexample: rotating the byte `0b10010110` left by one position
(`rotate 0 8 (-1)`) does not produce `0b00101101`, neither as identical state
nor under the code's own bitwise equality. -/
theorem c2_counterexample :
    ¬ ((BitArray.from_u8 0b10010110).rotate 0 8 (-1) =
        .ok (BitArray.from_u8 0b00101101)) ∧
    ((BitArray.from_u8 0b10010110).rotate 0 8 (-1)).bind
        (fun x => x.beq (BitArray.from_u8 0b00101101)) = .ok false := by decide

/-- C2 amended: `rotate 0 8 (-1)` on the byte `0b10010110` yields
`0b01001011` — every bit moves one index lower and bit 0 wraps to bit 7,
matching the source's `test_rotate_left_1`. -/
theorem c2_amended_rotate_left_one :
    (BitArray.from_u8 0b10010110).rotate 0 8 (-1) =
      .ok (BitArray.from_u8 0b01001011) := by decide

/-- C6: on the byte `0b10010110`, rotating the whole array left by 2 yields
`0b10100101`; rotating the length-4 range at offset 1 left by 2 yields
`0b10011100` with bits 0, 5, 6, 7 (the valid indices outside `[1,5)`)
unchanged; rotating that range left by 4 restores the original byte. -/
theorem c6_rotate_left_literal_examples :
    (BitArray.from_u8 0b10010110).rotate_left 0 8 2 =
      .ok (BitArray.from_u8 0b10100101) ∧
    (BitArray.from_u8 0b10010110).rotate_left 1 4 2 =
      .ok (BitArray.from_u8 0b10011100) ∧
    ((BitArray.from_u8 0b10011100).get 0 = (BitArray.from_u8 0b10010110).get 0 ∧
     (BitArray.from_u8 0b10011100).get 5 = (BitArray.from_u8 0b10010110).get 5 ∧
     (BitArray.from_u8 0b10011100).get 6 = (BitArray.from_u8 0b10010110).get 6 ∧
     (BitArray.from_u8 0b10011100).get 7 = (BitArray.from_u8 0b10010110).get 7) ∧
    (BitArray.from_u8 0b10010110).rotate_left 1 4 4 =
      .ok (BitArray.from_u8 0b10010110) := by decide

/-- C7: on a well-formed array, `set i v` succeeds; afterwards `get i`
returns `v`, every other index reads as before, and the bit count is
unchanged. -/
theorem c7_set_get_consistency (a : BitArray) (i : Nat) (v : Bool)
    (hwf : a.wf) (hi : i < a.bit_sz) :
    ∃ a', a.set i v = .ok a' ∧ a'.get i = .ok v ∧
      (∀ j, j < a.bit_sz → j ≠ i → a'.get j = a.get j) ∧
      a'.bit_sz = a.bit_sz := by
  refine ⟨a.setPure i v, BitArray.set_ok hwf hi v, ?_, ?_, rfl⟩
  · have hwf' : (a.setPure i v).wf := BitArray.setPure_wf hwf i v
    rw [BitArray.get_ok hwf' (by simpa using hi),
      BitArray.bitAt_setPure_self (BitArray.byte_index_lt hwf hi)]
  · intro j hj hne
    exact BitArray.get_congr rfl (by simp) (BitArray.bitAt_setPure_other hne v)

/-- Witness for `c7_set_get_consistency` on the byte `0b10010110` at
index 0 with value `true`. -/
theorem c7_set_get_consistency_witness :
    (BitArray.from_u8 150).bit_sz ≤ 8 * (BitArray.from_u8 150).data.length ∧
    0 < (BitArray.from_u8 150).bit_sz ∧
    ∃ a', (BitArray.from_u8 150).set 0 true = .ok a' ∧ a'.get 0 = .ok true ∧
      (∀ j, j < (BitArray.from_u8 150).bit_sz → j ≠ 0 →
        a'.get j = (BitArray.from_u8 150).get j) ∧
      a'.bit_sz = (BitArray.from_u8 150).bit_sz :=
  ⟨by decide, by decide,
    c7_set_get_consistency (BitArray.from_u8 150) 0 true
      (by unfold BitArray.wf; decide) (by decide)⟩

/-- C10: a successful `rotate` over an in-range subrange preserves the bit
count and leaves every valid index outside `[offset, offset + length)`
reading exactly as before. -/
theorem c10_rotate_frame (a a' : BitArray) (o l : Nat) (amt : Int)
    (hok : a.rotate o l amt = .ok a') (hin : o + l ≤ a.bit_sz) :
    a'.bit_sz = a.bit_sz ∧
    ∀ j, j < a.bit_sz → (j < o ∨ o + l ≤ j) → a'.get j = a.get j := by
  unfold BitArray.rotate at hok
  split at hok
  case isTrue hassert =>
    split at hok
    case isTrue hl0 =>
      cases hok
      exact ⟨rfl, fun j _ _ => rfl⟩
    case isFalse hl0 =>
      cases hm : BitArray.modulo (-amt) l with
      | error e =>
        simp only [hm, error_bind] at hok
        exact Except.noConfusion hok
      | ok k =>
        simp only [hm, ok_bind] at hok
        obtain ⟨hsz, hlen, hframe⟩ := BitArray.rotate_left_inv k hok
        exact ⟨hsz, fun j _ hj => BitArray.get_congr hsz hlen (hframe j hj)⟩
  case isFalse hassert => exact Except.noConfusion hok

/-- Witness for `c10_rotate_frame`: `rotate 1 4 (-2)` on the byte
`0b10010110` yields `0b10011100` and fixes all bits outside `[1, 5)`. -/
theorem c10_rotate_frame_witness :
    (BitArray.from_u8 150).rotate 1 4 (-2) = .ok { bit_sz := 8, data := [156] } ∧
    1 + 4 ≤ (BitArray.from_u8 150).bit_sz ∧
    (({ bit_sz := 8, data := [156] } : BitArray).bit_sz =
        (BitArray.from_u8 150).bit_sz ∧
      ∀ j, j < (BitArray.from_u8 150).bit_sz → (j < 1 ∨ 1 + 4 ≤ j) →
        ({ bit_sz := 8, data := [156] } : BitArray).get j =
          (BitArray.from_u8 150).get j) :=
  ⟨by decide, by decide,
    c10_rotate_frame (BitArray.from_u8 150) { bit_sz := 8, data := [156] }
      1 4 (-2) (by decide) (by decide)⟩

/-- C8: under well-formedness, the code's equality answers `true` exactly
when the bit counts agree and `get` agrees at every valid index; buffer
layout beyond the bit count plays no part. -/
theorem c8_equality_excludes_padding (a b : BitArray)
    (hwa : a.wf) (hwb : b.wf) :
    a.beq b = .ok true ↔
      (a.bit_sz = b.bit_sz ∧ ∀ i, i < a.bit_sz → a.get i = b.get i) := by
  unfold BitArray.beq BitArray.get_bit_sz
  by_cases hsz : a.bit_sz = b.bit_sz
  · rw [if_neg (not_ne_iff.mpr hsz),
      BitArray.eqLoop_ok hwa hwb (List.range a.bit_sz)
        (fun i hi => ⟨List.mem_range.mp hi, hsz ▸ List.mem_range.mp hi⟩)]
    constructor
    · intro hall
      refine ⟨hsz, fun i hi => ?_⟩
      rw [BitArray.get_ok hwa hi, BitArray.get_ok hwb (hsz ▸ hi),
        hall i (List.mem_range.mpr hi)]
    · rintro ⟨-, hall⟩ i hi
      have hi' := List.mem_range.mp hi
      have hgets := hall i hi'
      rw [BitArray.get_ok hwa hi', BitArray.get_ok hwb (hsz ▸ hi')] at hgets
      exact Except.ok.inj hgets
  · rw [if_pos hsz]
    exact iff_of_false (by simp) (fun h => hsz h.1)

/-- Witness for `c8_equality_excludes_padding`: `new 8` (two zero bytes of
buffer) and `from_u8 0` (one zero byte) hold the same logical bits behind
different buffers and compare equal. -/
theorem c8_equality_excludes_padding_witness :
    (BitArray.new 8).beq (BitArray.from_u8 0) = .ok true ∧
    ¬ (BitArray.new 8).data = (BitArray.from_u8 0).data :=
  ⟨(c8_equality_excludes_padding (BitArray.new 8) (BitArray.from_u8 0)
      (by unfold BitArray.wf; decide) (by unfold BitArray.wf; decide)).mpr
      (by decide),
    by decide⟩

/-- C9 counterexample: on the invalid input `"2"` the parser hits the
source's `panic!` rather than returning a typed, recoverable error — no
`InvalidCharacter` value exists anywhere in the code. -/
theorem c9_counterexample_parser_panics :
    BitArray.from_str "2" = .error .panicked := by decide

/-- C9 amended: on any input containing a character other than `'0'`/`'1'`
the parser panics; on any all-binary input it succeeds with bit count equal
to the input length. -/
theorem c9_amended_parser_behaviour (s : String) :
    ((∃ c ∈ s.data, c ≠ '0' ∧ c ≠ '1') →
      BitArray.from_str s = .error .panicked) ∧
    ((∀ c ∈ s.data, c = '0' ∨ c = '1') →
      ∃ a, BitArray.from_str s = .ok a ∧ a.bit_sz = s.length) := by
  have hrevlen : s.data.reverse.length = s.length := by
    rw [List.length_reverse]
    exact String.length_data s
  constructor
  · rintro ⟨c, hc, h01⟩
    unfold BitArray.from_str
    refine BitArray.fromStrLoop_invalid s.data.reverse (BitArray.new s.length) 0
      (BitArray.wf_new s.length) ?_ ⟨c, by simp [hc], h01⟩
    simp [BitArray.new, hrevlen]
  · intro hvalid
    unfold BitArray.from_str
    obtain ⟨a, h1, h2, -, -, -⟩ := BitArray.fromStrLoop_ok s.data.reverse
      (BitArray.new s.length) 0 (BitArray.wf_new s.length)
      (fun c hc => hvalid c (List.mem_reverse.mp hc))
      (by simp [BitArray.new, hrevlen])
    exact ⟨a, h1, h2⟩

/-- Witness for `c9_amended_parser_behaviour` at the inputs `"2"` (panics)
and `"01"` (succeeds with bit count 2). -/
theorem c9_amended_parser_behaviour_witness :
    BitArray.from_str "2" = .error .panicked ∧
    ∃ a, BitArray.from_str "01" = .ok a ∧
      a.bit_sz = String.length "01" :=
  ⟨(c9_amended_parser_behaviour "2").1 (by decide),
    (c9_amended_parser_behaviour "01").2 (by decide)⟩

/-- C5: parsing any string of binary digits (including the empty string) and
rendering the result reproduces the string, leftmost character = highest
bit index. -/
theorem c5_textual_round_trip (s : String) (hs : ∀ c ∈ s.data, c = '0' ∨ c = '1') :
    (BitArray.from_str s).bind BitArray.render = .ok s := by
  have hrevlen : s.data.reverse.length = s.length := by
    rw [List.length_reverse]
    exact String.length_data s
  obtain ⟨a, h1, h2, h3, h4, h5⟩ := BitArray.fromStrLoop_ok s.data.reverse
    (BitArray.new s.length) 0 (BitArray.wf_new s.length)
    (fun c hc => hs c (List.mem_reverse.mp hc))
    (by simp [BitArray.new, hrevlen])
  have hsz : a.bit_sz = s.length := by rw [h2]; rfl
  have hN : a.bit_sz = s.data.length := by rw [hsz, String.length_data]
  have hwa : a.wf := by
    have hw := BitArray.wf_new s.length
    unfold BitArray.wf at hw ⊢
    rw [hsz, h3]
    exact hw
  unfold BitArray.from_str
  rw [h1]
  show a.render = Except.ok s
  rw [BitArray.render_ok a hwa]
  suffices hlist : ((List.range a.bit_sz).map
      (fun i => if a.bitAt i then '1' else '0')).reverse = s.data by
    rw [hlist]
  apply List.ext_getElem
  · simp [hN]
  · intro n hn1 hn2
    have hnN : n < s.data.length := hn2
    rw [List.getElem_reverse]
    simp only [List.getElem_map, List.getElem_range, List.length_map,
      List.length_range]
    have hk : a.bit_sz - 1 - n < s.data.reverse.length := by
      rw [List.length_reverse]
      omega
    have hbit := h5 (a.bit_sz - 1 - n) hk
    rw [Nat.zero_add] at hbit
    have hchar : s.data.reverse[a.bit_sz - 1 - n] = s.data[n] := by
      rw [List.getElem_reverse]
      congr 1
      omega
    rw [hchar] at hbit
    rw [hbit]
    rcases hs s.data[n] (List.getElem_mem hnN) with h01 | h01 <;> rw [h01] <;> rfl

/-- Witness for `c5_textual_round_trip` at `"10010110"` and the empty
string. -/
theorem c5_textual_round_trip_witness :
    (BitArray.from_str "10010110").bind BitArray.render = .ok "10010110" ∧
    (BitArray.from_str "").bind BitArray.render = .ok "" :=
  ⟨c5_textual_round_trip "10010110" (by decide),
    c5_textual_round_trip "" (by decide)⟩

end Everybit
